import Mathlib

/-!
Verification development for the `asyncirc` IRC protocol engine
(`src/asyncirc/protocol.py`).  The Python source is shallowly embedded:
pure fragments become Lean functions, stateful methods become explicit
state-passing functions returning the new state together with the ordered
list of lines passed to `conn.send`, and fallible code (Python indexing
that may raise) returns `Option`.
-/

namespace AsyncIrc

/-- A parsed IRC message (external collaborator `asyncirc.irc.Message`):
a command and an ordered parameter list. -/
structure Message where
  command : String
  parameters : List String
deriving DecidableEq

/- ## Message framer (`IrcProtocol.data_received`, protocol.py lines 254-262)

Bytes are modelled as `List Nat` (byte values); the CRLF terminator is the
two-byte subsequence `[13, 10]`. -/

/-- Embeds the combination of `b'\r\n' in buff` and
`buff.split(b'\r\n', 1)`: locate the first occurrence of CRLF and return
the bytes before it and the bytes after it, or `none` when the buffer
holds no CRLF. -/
def splitCRLF : List Nat → Option (List Nat × List Nat)
  | [] => none
  | x :: rest =>
    if x = 13 ∧ rest.head? = some 10 then some ([], rest.tail)
    else (splitCRLF rest).map fun p => (x :: p.1, p.2)

theorem splitCRLF_length : ∀ {b l r : List Nat},
    splitCRLF b = some (l, r) → r.length < b.length := by
  intro b
  induction b with
  | nil => intro l r h; simp [splitCRLF] at h
  | cons x rest ih =>
    intro l r h
    simp only [splitCRLF] at h
    split at h
    · rename_i hc
      simp only [Option.some.injEq, Prod.mk.injEq] at h
      obtain ⟨rfl, rfl⟩ := h
      cases rest with
      | nil => simp at hc
      | cons y t =>
        simp only [List.tail_cons, List.length_cons]
        omega
    · rcases hs : splitCRLF rest with _ | ⟨l0, r0⟩
      · rw [hs] at h; simp at h
      · rw [hs] at h
        simp only [Option.map_some', Option.some.injEq, Prod.mk.injEq] at h
        obtain ⟨h1, h2⟩ := h
        have := ih hs
        subst h2
        simp only [List.length_cons]
        omega

theorem splitCRLF_append_some {b l r : List Nat} (d : List Nat)
    (h : splitCRLF b = some (l, r)) :
    splitCRLF (b ++ d) = some (l, r ++ d) := by
  induction b generalizing l with
  | nil => simp [splitCRLF] at h
  | cons x rest ih =>
    simp only [splitCRLF] at h
    simp only [List.cons_append, splitCRLF]
    split at h
    · rename_i hc
      obtain ⟨hx, hh⟩ := hc
      cases rest with
      | nil => simp at hh
      | cons y t =>
        simp only [List.head?_cons, Option.some.injEq] at hh
        simp only [Option.some.injEq, Prod.mk.injEq] at h
        obtain ⟨rfl, rfl⟩ := h
        subst hx hh
        simp [splitCRLF]
    · rename_i hc
      rcases hs : splitCRLF rest with _ | ⟨l0, r0⟩
      · rw [hs] at h; simp at h
      · rw [hs] at h
        simp only [Option.map_some', Option.some.injEq, Prod.mk.injEq] at h
        obtain ⟨h1, h2⟩ := h
        subst h2
        have hne : ¬(x = 13 ∧ (rest ++ d).head? = some 10) := by
          intro hcontra
          obtain ⟨hx, hh⟩ := hcontra
          cases rest with
          | nil => simp [splitCRLF] at hs
          | cons y t => exact hc ⟨hx, by simpa using hh⟩
        simp only [List.append_eq] at hne ⊢
        rw [if_neg hne, ih hs]
        simp [h1]

/-- Embeds the `while b'\r\n' in self._buff:` loop of `data_received`:
repeatedly strip complete CRLF-terminated lines off the front of the
buffer, returning the ordered extracted lines (terminator removed) and
the trailing partial line left buffered. -/
def framer (b : List Nat) : List (List Nat) × List Nat :=
  match h : splitCRLF b with
  | none => ([], b)
  | some (l, r) =>
    let p := framer r
    (l :: p.1, p.2)
termination_by b.length
decreasing_by exact splitCRLF_length h

theorem framer_eq_none {b : List Nat} (h : splitCRLF b = none) :
    framer b = ([], b) := by
  conv_lhs => rw [framer.eq_def]
  split
  · rfl
  · rename_i l r heq; rw [heq] at h; cases h

theorem framer_eq_some {b l r : List Nat} (h : splitCRLF b = some (l, r)) :
    framer b = (l :: (framer r).1, (framer r).2) := by
  conv_lhs => rw [framer.eq_def]
  split
  · rename_i heq; rw [heq] at h; cases h
  · rename_i l0 r0 heq
    rw [heq] at h
    simp only [Option.some.injEq, Prod.mk.injEq] at h
    obtain ⟨rfl, rfl⟩ := h
    rfl

theorem framer_append_aux : ∀ (n : Nat) (b d : List Nat), b.length ≤ n →
    framer (b ++ d) =
      ((framer b).1 ++ (framer ((framer b).2 ++ d)).1,
        (framer ((framer b).2 ++ d)).2) := by
  intro n
  induction n with
  | zero =>
    intro b d hb
    have hbnil : b = [] := List.length_eq_zero.mp (Nat.le_zero.mp hb)
    subst hbnil
    rw [framer_eq_none (show splitCRLF [] = none by rfl)]
    simp
  | succ n ih =>
    intro b d hb
    rcases h : splitCRLF b with _ | ⟨l, r⟩
    · rw [framer_eq_none h]
      simp
    · have hlen := splitCRLF_length h
      rw [framer_eq_some h]
      rw [framer_eq_some (splitCRLF_append_some d h)]
      have ihr := ih r d (by omega)
      rw [ihr]
      simp

theorem framer_append (b d : List Nat) :
    framer (b ++ d) =
      ((framer b).1 ++ (framer ((framer b).2 ++ d)).1,
        (framer ((framer b).2 ++ d)).2) :=
  framer_append_aux b.length b d le_rfl

theorem splitCRLF_framer_snd : ∀ (n : Nat) (b : List Nat), b.length ≤ n →
    splitCRLF (framer b).2 = none := by
  intro n
  induction n with
  | zero =>
    intro b hb
    have hbnil : b = [] := List.length_eq_zero.mp (Nat.le_zero.mp hb)
    subst hbnil
    rw [framer_eq_none (show splitCRLF [] = none by rfl)]
    rfl
  | succ n ih =>
    intro b hb
    rcases h : splitCRLF b with _ | ⟨l, r⟩
    · rw [framer_eq_none h]; exact h
    · have hlen := splitCRLF_length h
      rw [framer_eq_some h]
      exact ih r (by omega)

/-- One call of `data_received` restricted to its framing effect:
append the chunk to the buffer, then extract every complete line. -/
def data_received (buff data : List Nat) : List (List Nat) × List Nat :=
  framer (buff ++ data)

/-- Feed a sequence of chunks to `data_received` in order, starting from
buffer `buff`, collecting every extracted line in order and the final
buffer contents. -/
def feedAll : List Nat → List (List Nat) → List (List Nat) × List Nat
  | buff, [] => ([], buff)
  | buff, c :: cs =>
    let p := data_received buff c
    let q := feedAll p.2 cs
    (p.1 ++ q.1, q.2)

theorem feedAll_eq_framer : ∀ (cs : List (List Nat)) (buff : List Nat),
    splitCRLF buff = none →
    feedAll buff cs = framer (buff ++ cs.flatten) := by
  intro cs
  induction cs with
  | nil =>
    intro buff hb
    simp [feedAll, framer_eq_none hb]
  | cons c cs ih =>
    intro buff hb
    have h1 : feedAll buff (c :: cs) =
        ((framer (buff ++ c)).1 ++ (feedAll (framer (buff ++ c)).2 cs).1,
          (feedAll (framer (buff ++ c)).2 cs).2) := rfl
    rw [h1, ih _ (splitCRLF_framer_snd (buff ++ c).length _ le_rfl)]
    have h2 := framer_append (buff ++ c) cs.flatten
    rw [List.flatten_cons, ← List.append_assoc, h2]

/-- Claim C2: for every fixed byte stream and every way of splitting it
into chunks (zero-length chunks and chunks splitting the CRLF terminator
included), feeding the chunks in order to `data_received` yields exactly
the line sequence and trailing partial buffer determined by the whole
stream: the result depends only on the concatenation of the chunks, so
every chunking of the same stream yields the identical ordered sequence
of raw line buffers with no loss or duplication. -/
theorem data_received_chunking_invariance (cs : List (List Nat)) :
    feedAll [] cs = framer cs.flatten :=
  feedAll_eq_framer cs [] rfl

/- ## Handler registry (`IrcProtocol.register`/`unregister`,
protocol.py lines 166-176)

`self.handlers` is a dict from an integer token to a `(command, handler)`
pair; it is modelled as a function `Nat → Option (String × Nat)` where the
handler function itself is identified by an opaque numeric id.  The
successive values produced by `random.randint(1, 2**32 - 1)` are passed in
explicitly as a list of draws (arbitrary naturals, so even adversarial
draws colliding with live tokens or equal to 0 are covered); the model
returns `none` when the draw list is exhausted before a fresh token is
found. -/

abbrev HandlerMap := Nat → Option (String × Nat)

def emptyHandlers : HandlerMap := fun _ => none

/-- Embeds `IrcProtocol.register`: starting from `hook_id = 0`, draw a new
candidate while the candidate is falsy (`0`) or already a key of
`self.handlers`; then store `(cmd, handler)` under it and return it. -/
def register (h : HandlerMap) (cmd : String) (fn : Nat) :
    List Nat → Option (Nat × HandlerMap)
  | [] => none
  | d :: ds =>
    if d = 0 ∨ (h d).isSome = true then register h cmd fn ds
    else some (d, fun k => if k = d then some (cmd, fn) else h k)

/-- Embeds `IrcProtocol.unregister`: `del self.handlers[hook_id]`. -/
def eraseH (h : HandlerMap) (t : Nat) : HandlerMap :=
  fun k => if k = t then none else h k

theorem register_spec {h : HandlerMap} {cmd : String} {fn : Nat} :
    ∀ {ds : List Nat} {t : Nat} {h2 : HandlerMap},
    register h cmd fn ds = some (t, h2) →
    t ≠ 0 ∧ h t = none ∧
      h2 = fun k => if k = t then some (cmd, fn) else h k := by
  intro ds
  induction ds with
  | nil => intro t h2 hr; simp [register] at hr
  | cons d ds ih =>
    intro t h2 hr
    simp only [register] at hr
    split at hr
    · exact ih hr
    · rename_i hcond
      push_neg at hcond
      obtain ⟨hd0, hds⟩ := hcond
      simp only [Option.some.injEq, Prod.mk.injEq] at hr
      obtain ⟨rfl, rfl⟩ := hr
      refine ⟨hd0, ?_, rfl⟩
      cases hv : h d with
      | none => rfl
      | some v => rw [hv] at hds; simp at hds

/-- Claim C6: for every registry state and every sequence of random token
draws (adversarial collisions and zeroes included), a successful
`register` call returns a nonzero token that was not a key of the registry
before the call, stores the `(filter, handler)` pair under that token
while leaving every other registration untouched, and a second successful
`register` call performed while the first registration is live never
returns the same token. -/
theorem register_fresh_unique (h : HandlerMap) (cmd : String) (fn : Nat)
    (ds : List Nat) (t : Nat) (h2 : HandlerMap)
    (hr : register h cmd fn ds = some (t, h2)) :
    t ≠ 0 ∧ h t = none ∧ h2 t = some (cmd, fn) ∧
      (∀ k, k ≠ t → h2 k = h k) ∧
      ∀ cmd2 fn2 ds2 t2 h3, register h2 cmd2 fn2 ds2 = some (t2, h3) →
        t2 ≠ t := by
  obtain ⟨ht0, htnone, rfl⟩ := register_spec hr
  refine ⟨ht0, htnone, by simp, fun k hk => by simp [hk], ?_⟩
  intro cmd2 fn2 ds2 t2 h3 hr2
  obtain ⟨_, ht2none, _⟩ := register_spec hr2
  intro hcontra
  subst hcontra
  simp at ht2none

def regWitMap : HandlerMap :=
  fun k => if k = 7 then some ("PING", 1) else emptyHandlers k

theorem register_fresh_unique_witness :
    7 ≠ 0 ∧ emptyHandlers 7 = none ∧ regWitMap 7 = some ("PING", 1) ∧
      (∀ k, k ≠ 7 → regWitMap k = emptyHandlers k) ∧
      ∀ cmd2 fn2 ds2 t2 h3, register regWitMap cmd2 fn2 ds2 = some (t2, h3) →
        t2 ≠ 7 :=
  register_fresh_unique emptyHandlers "PING" 1 [0, 7, 9] 7 regWitMap rfl

/- ## Request/response correlator (`IrcProtocol.wait_for`,
protocol.py lines 186-208) -/

/-- Unregister every token in `hooks` in order, embedding the
`finally: for hook_id in hooks: self.unregister(hook_id)` block. -/
def unregisterAll (h : HandlerMap) (ts : List Nat) : HandlerMap :=
  ts.foldl eraseH h

/-- Embeds the list comprehension
`hooks = [self.register(cmd, _wait) for cmd in cmds]`: register the shared
ephemeral handler `fn` once per command, each call consuming its own list
of random draws, returning the hook tokens in order with the new map. -/
def registerAll (fn : Nat) :
    HandlerMap → List (String × List Nat) → Option (List Nat × HandlerMap)
  | h, [] => some ([], h)
  | h, (c, ds) :: rest =>
    match register h c fn ds with
    | none => none
    | some (t, h1) =>
      match registerAll fn h1 rest with
      | none => none
      | some (ts, h2) => some (t :: ts, h2)

/-- Embeds the ephemeral `_wait` handler body: `if not fut.done():
fut.set_result(message)` — the single-resolution result slot keeps its
first value. -/
def resolveSlot (cell : Option Message) (m : Message) : Option Message :=
  if cell.isSome then cell else some m

/-- A message triggers one of the ephemeral hooks when some registered
command filter equals the message command or is the wildcard, mirroring
`if trigger in (message.command, '*')` in `data_received` dispatch. -/
def matchesAny (cmds : List String) (m : Message) : Bool :=
  cmds.any fun trig => trig == m.command || trig == "*"

/-- Embeds `IrcProtocol.wait_for`.  `cmds` pairs each command filter with
the random draws its `register` call consumes; `arrivals` is the ordered
sequence of messages dispatched to the ephemeral hooks before the wait
ends (empty on a pure timeout).  Both the resolution path and the timeout
path run the `finally` block unregistering every hook. -/
def wait_for (h : HandlerMap) (fn : Nat) (cmds : List (String × List Nat))
    (arrivals : List Message) : Option (Option Message × HandlerMap) :=
  if cmds.isEmpty then some (none, h)
  else
    match registerAll fn h cmds with
    | none => none
    | some (ts, h1) =>
      let delivered := arrivals.filter (matchesAny (cmds.map Prod.fst))
      let res := delivered.foldl resolveSlot none
      some (res, unregisterAll h1 ts)

theorem eraseH_comm (h : HandlerMap) (a b : Nat) :
    eraseH (eraseH h a) b = eraseH (eraseH h b) a := by
  funext k
  simp only [eraseH]
  split <;> split <;> simp_all

theorem unregisterAll_eraseH : ∀ (ts : List Nat) (h : HandlerMap) (t : Nat),
    unregisterAll (eraseH h t) ts = eraseH (unregisterAll h ts) t := by
  intro ts
  induction ts with
  | nil => intro h t; rfl
  | cons a ts ih =>
    intro h t
    show unregisterAll (eraseH (eraseH h t) a) ts =
      eraseH (unregisterAll (eraseH h a) ts) t
    rw [eraseH_comm, ih]

theorem registerAll_spec {fn : Nat} :
    ∀ {cd : List (String × List Nat)} {h h2 : HandlerMap} {ts : List Nat},
    registerAll fn h cd = some (ts, h2) →
    (∀ k, k ∉ ts → h2 k = h k) ∧ (∀ t ∈ ts, h t = none) ∧
      unregisterAll h2 ts = h := by
  intro cd
  induction cd with
  | nil =>
    intro h h2 ts hr
    simp only [registerAll, Option.some.injEq, Prod.mk.injEq] at hr
    obtain ⟨rfl, rfl⟩ := hr
    exact ⟨fun k _ => rfl, fun t ht => absurd ht (List.not_mem_nil t), rfl⟩
  | cons p rest ih =>
    intro h h2 ts hr
    obtain ⟨c, ds⟩ := p
    simp only [registerAll] at hr
    rcases h1eq : register h c fn ds with _ | ⟨t, h1⟩
    · rw [h1eq] at hr; cases hr
    · rw [h1eq] at hr
      dsimp only at hr
      rcases h2eq : registerAll fn h1 rest with _ | ⟨ts', hB⟩
      · rw [h2eq] at hr; cases hr
      · rw [h2eq] at hr
        dsimp only at hr
        simp only [Option.some.injEq, Prod.mk.injEq] at hr
        obtain ⟨rfl, rfl⟩ := hr
        obtain ⟨ht0, htnone, rfl⟩ := register_spec h1eq
        obtain ⟨ihA, ihB, ihC⟩ := ih h2eq
        have hupd : ∀ u, u ∈ ts' → u ≠ t := by
          intro u hu hcontra
          subst hcontra
          have := ihB u hu
          simp at this
        refine ⟨?_, ?_, ?_⟩
        · intro k hk
          have hk1 : k ∉ ts' := fun hm => hk (List.mem_cons_of_mem _ hm)
          have hk2 : k ≠ t := fun he => hk (he ▸ List.mem_cons_self _ _)
          rw [ihA k hk1]
          simp [hk2]
        · intro u hu
          rcases List.mem_cons.mp hu with rfl | hu'
          · exact htnone
          · have := ihB u hu'
            have hne := hupd u hu'
            simpa [hne] using this
        · have hstep : unregisterAll hB (t :: ts') =
              unregisterAll (eraseH hB t) ts' := rfl
          rw [hstep, unregisterAll_eraseH, ihC]
          funext k
          simp only [eraseH]
          split
          · rename_i hk; subst hk; exact htnone.symm
          · rename_i hk; simp [hk]

theorem foldl_resolveSlot_some : ∀ (ms : List Message) (m : Message),
    ms.foldl resolveSlot (some m) = some m := by
  intro ms
  induction ms with
  | nil => intro m; rfl
  | cons a ms ih =>
    intro m
    show ms.foldl resolveSlot (resolveSlot (some m) a) = some m
    simp only [resolveSlot, Option.isSome_some, if_pos]
    exact ih m

theorem foldl_resolveSlot_head : ∀ (ms : List Message),
    ms.foldl resolveSlot none = ms.head? := by
  intro ms
  cases ms with
  | nil => rfl
  | cons m ms =>
    show ms.foldl resolveSlot (resolveSlot none m) = some m
    simp only [resolveSlot, Option.isSome_none, Bool.false_eq_true,
      if_neg, ite_false]
    exact foldl_resolveSlot_some ms m

/-- Claim C3: whenever `wait_for` runs to completion — resolving on a
dispatched message or timing out with no arrival — every ephemeral hook it
registered has been unregistered again, leaving the handler registry
exactly as it was before the call, and its result is the first dispatched
message matching one of the filters (`none` on timeout), later matches
being ignored by the single-resolution slot. -/
theorem wait_for_cleanup (h : HandlerMap) (fn : Nat)
    (cmds : List (String × List Nat)) (arrivals : List Message)
    (res : Option Message) (h2 : HandlerMap)
    (hr : wait_for h fn cmds arrivals = some (res, h2)) :
    h2 = h ∧ res = (arrivals.filter (matchesAny (cmds.map Prod.fst))).head? := by
  unfold wait_for at hr
  split at hr
  · rename_i hempty
    simp only [Option.some.injEq, Prod.mk.injEq] at hr
    obtain ⟨rfl, rfl⟩ := hr
    have hnil : cmds = [] := by
      cases cmds with
      | nil => rfl
      | cons a l => simp [List.isEmpty] at hempty
    subst hnil
    constructor
    · rfl
    · have hf : arrivals.filter
          (matchesAny (([] : List (String × List Nat)).map Prod.fst)) = [] := by
        induction arrivals with
        | nil => rfl
        | cons a l ih => simp [List.filter_cons, matchesAny, ih]
      rw [hf]
      rfl
  · rcases hreg : registerAll fn h cmds with _ | ⟨ts, h1⟩
    · rw [hreg] at hr; cases hr
    · rw [hreg] at hr
      dsimp only at hr
      simp only [Option.some.injEq, Prod.mk.injEq] at hr
      obtain ⟨hres, rfl⟩ := hr
      obtain ⟨_, _, hrestore⟩ := registerAll_spec hreg
      exact ⟨hrestore, hres.symm.trans (foldl_resolveSlot_head _)⟩

def pongWaitMap : HandlerMap :=
  eraseH (fun k => if k = 3 then some ("PONG", 1) else emptyHandlers k) 3

theorem wait_for_cleanup_witness :
    pongWaitMap = emptyHandlers ∧
      (none : Option Message) =
        (([] : List Message).filter (matchesAny ["PONG"])).head? :=
  wait_for_cleanup emptyHandlers 1 [("PONG", [3])] [] none pongWaitMap rfl

/- ## Connection lifecycle state (`IrcProtocol`, protocol.py lines 82-252)

The engine fields touched by `connection_made`, `connection_lost`, `quit`
and the `user`/`realname` accessors.  Futures are modelled by a Boolean
recording whether they are resolved. -/

structure ProtoState where
  nick : String
  userOpt : Option String
  realnameOpt : Option String
  password : Option String
  connected : Bool
  quitting : Bool
  hasTransport : Bool
  connectedFutureDone : Bool
  quitFutureDone : Bool
deriving DecidableEq

/-- Embeds Python `a or b` for an optional string `a`: `None` and the
empty string are falsy. -/
def pyOrStr (a : Option String) (b : String) : String :=
  match a with
  | some s => if s = "" then b else s
  | none => b

/-- Embeds the `user` property: `return self._user or self.nick`. -/
def user (st : ProtoState) : String :=
  pyOrStr st.userOpt st.nick

/-- Embeds the `realname` property: `return self._realname or self.nick`. -/
def realname (st : ProtoState) : String :=
  pyOrStr st.realnameOpt st.nick

/-- Reading the `user` property: yields the value and the (unchanged)
engine state. -/
def userRead (st : ProtoState) : String × ProtoState :=
  (user st, st)

/-- Reading the `realname` property: yields the value and the (unchanged)
engine state. -/
def realnameRead (st : ProtoState) : String × ProtoState :=
  (realname st, st)

/-- Embeds Python truthiness of `self.server.password` (the optional
password of the server descriptor, an external record): `None` and the
empty string are falsy. -/
def pwTruthy (p : Option String) : Bool :=
  match p with
  | some s => s != ""
  | none => false

/-- Embeds `IrcProtocol.connection_made`: store the transport, mark
connected, resolve the connected future, then send `CAP LS 302`, the
optional `PASS`, `NICK` and `USER` lines, in this order. -/
def connection_made (st : ProtoState) : ProtoState × List String :=
  let st1 := { st with hasTransport := true, connected := true,
                       connectedFutureDone := true }
  let out := ["CAP LS 302"]
  let out := if pwTruthy st1.password
    then out ++ ["PASS " ++ st1.password.getD ""] else out
  let out := out ++ ["NICK " ++ st1.nick]
  let out := out ++ ["USER " ++ user st1 ++ " 0 * :" ++ realname st1]
  (st1, out)

/-- Claim C5: on every connection establishment the outbound lines are
emitted in the exact fixed order `CAP LS 302`, then `PASS <password>` if
and only if the server descriptor carries a (truthy) password, then
`NICK <nick>`, then `USER <user> 0 * :<realname>`. -/
theorem connection_made_startup_order (st : ProtoState) :
    (connection_made st).2 =
      ["CAP LS 302"] ++
        (if pwTruthy st.password then ["PASS " ++ st.password.getD ""] else []) ++
        ["NICK " ++ st.nick, "USER " ++ user st ++ " 0 * :" ++ realname st] := by
  by_cases hpw : pwTruthy st.password = true
  · simp [connection_made, hpw, user, realname]
  · simp only [Bool.not_eq_true] at hpw
    simp [connection_made, hpw, user, realname]

/-- Embeds the line chosen by `quit`: `QUIT <reason>` when the reason is
truthy, plain `QUIT` otherwise. -/
def quitLine (reason : Option String) : String :=
  match reason with
  | some r => if r = "" then "QUIT" else "QUIT " ++ r
  | none => "QUIT"

/-- Embeds `IrcProtocol.quit`: a no-op when already quitting, otherwise
mark quitting and send the single `QUIT` line. -/
def quit (st : ProtoState) (reason : Option String) : ProtoState × List String :=
  if st.quitting then (st, [])
  else ({ st with quitting := true }, [quitLine reason])

/-- Run a sequence of `quit` calls in order, collecting every sent line. -/
def quitSeq : ProtoState → List (Option String) → ProtoState × List String
  | st, [] => (st, [])
  | st, r :: rs =>
    let p := quit st r
    let q := quitSeq p.1 rs
    (q.1, p.2 ++ q.2)

theorem quitSeq_of_quitting : ∀ (rs : List (Option String)) (st : ProtoState),
    st.quitting = true → quitSeq st rs = (st, []) := by
  intro rs
  induction rs with
  | nil => intro st h; rfl
  | cons r rs ih =>
    intro st h
    show (let p := quit st r; let q := quitSeq p.1 rs; (q.1, p.2 ++ q.2)) =
      (st, [])
    simp only [quit, h, if_true]
    rw [ih st h]
    rfl

/-- Claim C7: `quit` is idempotent — for every sequence of two or more
`quit` calls starting from a non-quitting engine, exactly one `QUIT` line
is sent, carrying the first call's optional reason, and every call after
the first leaves the whole engine state unchanged (the final state is
exactly the state produced by the first call). -/
theorem quit_idempotent (st : ProtoState) (r : Option String)
    (rs : List (Option String)) (h : st.quitting = false) :
    quitSeq st (r :: rs) = ({ st with quitting := true }, [quitLine r]) := by
  show (let p := quit st r; let q := quitSeq p.1 rs; (q.1, p.2 ++ q.2)) = _
  simp only [quit, h, Bool.false_eq_true, if_false, ite_false]
  rw [quitSeq_of_quitting rs _ rfl]
  rfl

def quitWitState : ProtoState :=
  ⟨"bob", none, none, none, true, false, true, true, false⟩

theorem quit_idempotent_witness :
    quitSeq quitWitState [some "bye", none, some "x"] =
      ({ quitWitState with quitting := true }, [quitLine (some "bye")]) :=
  quit_idempotent quitWitState (some "bye") [none, some "x"] rfl

/-- Embeds `IrcProtocol.connection_lost`: clear the transport and the
connected flag; when not quitting, create a fresh (unresolved) connected
future and schedule `connect()` (the returned Boolean records that a
reconnection was started); when quitting, resolve `quit_future` and stop. -/
def connection_lost (st : ProtoState) : ProtoState × Bool :=
  let st1 := { st with hasTransport := false, connected := false }
  if st1.quitting then
    ({ st1 with quitFutureDone := true }, false)
  else
    ({ st1 with connectedFutureDone := false }, true)

/-- Claim C8: on a transport-loss notification, a reconnection attempt is
started if and only if the engine is not quitting; while quitting, no
reconnection is started and the quit-completion future is resolved
instead. -/
theorem connection_lost_reconnect_policy (st : ProtoState) :
    (connection_lost st).2 = !st.quitting ∧
      (connection_lost st).1.quitFutureDone =
        (st.quitting || st.quitFutureDone) := by
  cases hq : st.quitting <;> simp [connection_lost, hq]

/-- Claim C10: the `user` accessor returns the configured user name when
one was supplied and non-empty and the nick otherwise; the `realname`
accessor returns the configured realname when supplied and non-empty and
the nick otherwise; reading either accessor leaves the engine state
unchanged. -/
theorem user_realname_accessors (st : ProtoState) :
    (∀ s, st.userOpt = some s → s ≠ "" → user st = s) ∧
      ((st.userOpt = none ∨ st.userOpt = some "") → user st = st.nick) ∧
      (∀ s, st.realnameOpt = some s → s ≠ "" → realname st = s) ∧
      ((st.realnameOpt = none ∨ st.realnameOpt = some "") →
        realname st = st.nick) ∧
      userRead st = (user st, st) ∧ realnameRead st = (realname st, st) := by
  refine ⟨?_, ?_, ?_, ?_, rfl, rfl⟩
  · intro s hs hne
    simp [user, pyOrStr, hs, hne]
  · intro hcase
    rcases hcase with hnone | hempty
    · simp [user, pyOrStr, hnone]
    · simp [user, pyOrStr, hempty]
  · intro s hs hne
    simp [realname, pyOrStr, hs, hne]
  · intro hcase
    rcases hcase with hnone | hempty
    · simp [realname, pyOrStr, hnone]
    · simp [realname, pyOrStr, hempty]

def accWitState : ProtoState :=
  ⟨"bob", some "u", some "", none, false, false, false, false, false⟩

theorem user_realname_accessors_witness :
    user accWitState = "u" ∧ realname accWitState = "bob" ∧
      userRead accWitState = ("u", accWitState) := by
  have hmain := user_realname_accessors accWitState
  have h1 : user accWitState = "u" := hmain.1 "u" rfl (by decide)
  have h2 : realname accWitState = "bob" := hmain.2.2.2.1 (Or.inr rfl)
  have h3 : userRead accWitState = (user accWitState, accWitState) :=
    hmain.2.2.2.2.1
  exact ⟨h1, h2, by rw [h3, h1]⟩

/- ## SASL authentication flow (`_do_sasl`, protocol.py lines 59-69) -/

/-- The `SASLMechanism` enum of protocol.py. -/
inductive SASLMechanism where
  | NONE
  | PLAIN
  | EXTERNAL
deriving DecidableEq

/-- The `.name` attribute of a `SASLMechanism` member. -/
def mechName : SASLMechanism → String
  | .NONE => "NONE"
  | .PLAIN => "PLAIN"
  | .EXTERNAL => "EXTERNAL"

/-- Embeds the constructor line
`self.sasl_mech = SASLMechanism(sasl_mech or SASLMechanism.NONE)`: an
absent mechanism becomes `NONE`. -/
def initSaslMech (m : Option SASLMechanism) : SASLMechanism :=
  match m with
  | none => .NONE
  | some x => x

/-- UTF-8 encoding of one character (the effect of Python
`str.encode()`), as a list of byte values. -/
def utf8Enc (c : Char) : List Nat :=
  let n := c.toNat
  if n < 128 then [n]
  else if n < 2048 then [192 + n / 64, 128 + n % 64]
  else if n < 65536 then [224 + n / 4096, 128 + (n / 64) % 64, 128 + n % 64]
  else [240 + n / 262144, 128 + (n / 4096) % 64, 128 + (n / 64) % 64,
        128 + n % 64]

/-- UTF-8 encoding of a string as a list of byte values. -/
def strBytes (s : String) : List Nat :=
  s.data.foldr (fun c acc => utf8Enc c ++ acc) []

/-- The base64 alphabet (Python `base64.b64encode`). -/
def b64Table : List Char :=
  "ABCDEFGHIJKLMNOPQRSTUVWXYZabcdefghijklmnopqrstuvwxyz0123456789+/".data

def b64Char (n : Nat) : Char :=
  b64Table.getD n 'A'

/-- Standard base64 of a byte list: groups of three bytes become four
alphabet characters; a final group of one or two bytes is padded with
`=`. -/
def b64Body : List Nat → List Char
  | [] => []
  | [a] => [b64Char (a / 4), b64Char (a % 4 * 16), '=', '=']
  | [a, b] => [b64Char (a / 4), b64Char (a % 4 * 16 + b / 16),
               b64Char (b % 16 * 4), '=']
  | a :: b :: c :: rest =>
    b64Char (a / 4) :: b64Char (a % 4 * 16 + b / 16) ::
      b64Char (b % 16 * 4 + c / 64) :: b64Char (c % 64) :: b64Body rest

/-- Embeds `base64.b64encode(...).decode()` over the UTF-8 bytes of a
string. -/
def b64encode (bs : List Nat) : String :=
  String.mk (b64Body bs)

/-- Embeds `_do_sasl`.  `reply` is the message returned by
`await conn.wait_for("AUTHENTICATE", timeout=5)` (`none` on timeout); the
result is the ordered list of lines sent, or `none` when the source would
raise (indexing `parameters[0]` of a reply without parameters). -/
def do_sasl (mech : SASLMechanism) (nick : String) (sasl_auth : String × String)
    (reply : Option Message) : Option (List String) :=
  if mech = .NONE then some []
  else
    let firstLine := "AUTHENTICATE " ++ mechName mech
    match reply with
    | none => some [firstLine]
    | some msg =>
      match msg.parameters.head? with
      | none => none
      | some p0 =>
        if p0 = "+" then
          let authLine :=
            if mech = .PLAIN then
              b64encode (strBytes
                (String.intercalate "\x00" [nick, sasl_auth.1, sasl_auth.2]))
            else "+"
          some [firstLine, "AUTHENTICATE " ++ authLine]
        else some [firstLine]

/-- Claim C4: with an absent or `NONE` mechanism `_do_sasl` sends nothing;
otherwise, when the awaited `AUTHENTICATE` reply's first parameter is
`+`, it sends `AUTHENTICATE <MECHANISM>` followed by `AUTHENTICATE
<line>`, where for `PLAIN` the line is the base64 encoding of nick,
authcid and password joined by NUL bytes and for any other mechanism the
line is the literal `+`. -/
theorem do_sasl_response (mech : SASLMechanism) (nick : String)
    (sasl_auth : String × String) (msg : Message)
    (hmech : mech ≠ .NONE) (hplus : msg.parameters.head? = some "+") :
    (∀ nk au rp, do_sasl (initSaslMech none) nk au rp = some []) ∧
      (∀ nk au rp, do_sasl .NONE nk au rp = some []) ∧
      do_sasl mech nick sasl_auth (some msg) =
        some ["AUTHENTICATE " ++ mechName mech,
          "AUTHENTICATE " ++
            (if mech = .PLAIN then
              b64encode (strBytes
                (String.intercalate "\x00" [nick, sasl_auth.1, sasl_auth.2]))
            else "+")] := by
  refine ⟨fun nk au rp => rfl, fun nk au rp => rfl, ?_⟩
  simp [do_sasl, hmech, hplus]

/-- The concrete SASL PLAIN exchange of the spec example: nick `bob`,
credentials `("bob", "hunter2")`, reply `AUTHENTICATE +`. -/
theorem do_sasl_response_witness :
    do_sasl .PLAIN "bob" ("bob", "hunter2")
        (some (Message.mk "AUTHENTICATE" ["+"])) =
      some ["AUTHENTICATE PLAIN", "AUTHENTICATE Ym9iAGJvYgBodW50ZXIy"] := by
  have hmain := do_sasl_response .PLAIN "bob" ("bob", "hunter2")
    (Message.mk "AUTHENTICATE" ["+"]) (by decide) rfl
  have hval := hmain.2.2
  rw [hval]
  rfl

/- ## Capability negotiation (`_internal_cap_handler`, protocol.py
lines 36-56)

`conn.server.caps` is a Python dict from capability name to
`None`/`True`/`False`; it is modelled as an insertion-ordered association
list (`dictInsert` replaces in place or appends, exactly like dict
assignment).  `conn.cap_handlers` is a `defaultdict(list)`; only its key
set matters to the control flow (`cap.name in conn.cap_handlers`, and the
key creation performed by `conn.cap_handlers[cap.name]` on ACK), so it is
modelled as the ordered list of its keys.  Invoking the CAP handlers of an
enabled capability is abstracted away: those handlers are external
collaborators and emit no `CAP REQ`/`CAP END` line themselves. -/

/-- Split a character list on spaces, dropping empty tokens; `cur` is the
reversed current token. -/
def splitTokensAux : List Char → List Char → List (List Char)
  | [], cur => if cur = [] then [] else [cur.reverse]
  | c :: rest, cur =>
    if c = ' ' then
      if cur = [] then splitTokensAux rest []
      else cur.reverse :: splitTokensAux rest []
    else splitTokensAux rest (c :: cur)

/-- Modelled from the spec: `CapList.parse` (module `asyncirc.irc`, not
under `src/`) parses a space-separated CAP token list, each token
optionally carrying a `name=value` suffix, into an ordered sequence of
(name, optional value) pairs. -/
def capListParse (s : String) : List (String × Option String) :=
  (splitTokensAux s.data []).map fun tok =>
    let name := tok.takeWhile (fun c => c ≠ '=')
    match tok.dropWhile (fun c => c ≠ '=') with
    | [] => (String.mk name, none)
    | _ :: tl => (String.mk name, some (String.mk tl))

/-- The capability map of a `ConnectedServer`: insertion-ordered, like a
Python dict. -/
abbrev CapMap := List (String × Option Bool)

/-- Python dict assignment `d[k] = v`: replace the value in place when the
key exists, append the pair otherwise. -/
def dictInsert : CapMap → String → Option Bool → CapMap
  | [], k, v => [(k, v)]
  | p :: rest, k, v =>
    if p.1 = k then (k, v) :: rest else p :: dictInsert rest k v

/-- Python dict lookup `d.get(k)` on the capability map. -/
def capLookup : CapMap → String → Option (Option Bool)
  | [], _ => none
  | p :: rest, n => if p.1 = n then some p.2 else capLookup rest n

/-- `defaultdict` key creation: accessing a missing key appends it. -/
def addKey (keys : List String) (k : String) : List String :=
  if keys.contains k then keys else keys ++ [k]

/-- The negotiation state read and mutated by `_internal_cap_handler`. -/
structure CapState where
  caps : CapMap
  capHandlerKeys : List String
deriving DecidableEq

/-- The body of the LS-branch loop `for cap in caplist: if cap.name in
conn.cap_handlers: conn.server.caps[cap.name] = None`. -/
def lsStep (keys : List String) (acc : CapMap) (c : String × Option String) :
    CapMap :=
  if keys.contains c.1 then dictInsert acc c.1 none else acc

/-- Embeds `_internal_cap_handler`.  Returns the new state and the
ordered lines sent, or `none` when the source would raise an `IndexError`
on `message.parameters`. -/
def internal_cap_handler (st : CapState) (m : Message) :
    Option (CapState × List String) :=
  match m.parameters.get? 1 with
  | none => none
  | some sub =>
    if sub = "LS" then
      match m.parameters.getLast? with
      | none => none
      | some lastP =>
        let caplist := capListParse lastP
        let caps1 := caplist.foldl (lsStep st.capHandlerKeys) st.caps
        match m.parameters.get? 2 with
        | none => none
        | some p2 =>
          let sends :=
            if p2 ≠ "*" then caps1.map (fun p => "CAP REQ :" ++ p.1) else []
          some ({ st with caps := caps1 }, sends)
    else if sub = "ACK" ∨ sub = "NAK" then
      match m.parameters.getLast? with
      | none => none
      | some lastP =>
        let caplist := capListParse lastP
        let enabled := sub = "ACK"
        let st1 := caplist.foldl
          (fun acc c =>
            { caps := dictInsert acc.caps c.1 (some enabled),
              capHandlerKeys :=
                if enabled then addKey acc.capHandlerKeys c.1
                else acc.capHandlerKeys })
          st
        let sends :=
          if st1.caps.all (fun p => p.2.isSome) then ["CAP END"] else []
        some (st1, sends)
    else some (st, [])

/-- Process a sequence of inbound CAP messages in order, concatenating
the lines sent. -/
def runCapMsgs : CapState → List Message → Option (CapState × List String)
  | st, [] => some (st, [])
  | st, m :: ms =>
    match internal_cap_handler st m with
    | none => none
    | some (st1, s1) =>
      match runCapMsgs st1 ms with
      | none => none
      | some (st2, s2) => some (st2, s1 ++ s2)

theorem capLookup_dictInsert_self : ∀ (d : CapMap) (k : String)
    (v : Option Bool), capLookup (dictInsert d k v) k = some v := by
  intro d
  induction d with
  | nil => intro k v; simp [dictInsert, capLookup]
  | cons p rest ih =>
    intro k v
    simp only [dictInsert]
    split
    · simp [capLookup]
    · rename_i hne
      simp only [capLookup]
      rw [if_neg hne]
      exact ih k v

theorem capLookup_dictInsert_ne : ∀ (d : CapMap) (k n : String)
    (v : Option Bool), n ≠ k →
    capLookup (dictInsert d k v) n = capLookup d n := by
  intro d
  induction d with
  | nil =>
    intro k n v hne
    simp [dictInsert, capLookup, Ne.symm hne]
  | cons p rest ih =>
    intro k n v hne
    simp only [dictInsert]
    split
    · rename_i hp
      have hkn : ¬k = n := fun hc => hne hc.symm
      have hpn : ¬p.1 = n := by rw [hp]; exact hkn
      show (if k = n then some v else capLookup rest n) =
        (if p.1 = n then some p.2 else capLookup rest n)
      rw [if_neg hkn, if_neg hpn]
    · simp only [capLookup]
      split
      · rfl
      · exact ih k n v hne

theorem lsFold_lookup_unlisted : ∀ (cl : List (String × Option String))
    (keys : List String) (d : CapMap) (n : String),
    n ∉ cl.map Prod.fst →
    capLookup (cl.foldl (lsStep keys) d) n = capLookup d n := by
  intro cl
  induction cl with
  | nil => intro keys d n _; rfl
  | cons c cl ih =>
    intro keys d n hn
    simp only [List.map_cons, List.mem_cons] at hn
    push_neg at hn
    obtain ⟨hn1, hn2⟩ := hn
    show capLookup (cl.foldl (lsStep keys) (lsStep keys d c)) n = capLookup d n
    rw [ih keys _ n hn2]
    unfold lsStep
    split
    · exact capLookup_dictInsert_ne d c.1 n none hn1
    · rfl

theorem lsFold_lookup_no_handler : ∀ (cl : List (String × Option String))
    (keys : List String) (d : CapMap) (n : String),
    keys.contains n = false →
    capLookup (cl.foldl (lsStep keys) d) n = capLookup d n := by
  intro cl
  induction cl with
  | nil => intro keys d n _; rfl
  | cons c cl ih =>
    intro keys d n hk
    show capLookup (cl.foldl (lsStep keys) (lsStep keys d c)) n = capLookup d n
    rw [ih keys _ n hk]
    unfold lsStep
    split
    · rename_i hc
      by_cases hcn : n = c.1
      · subst hcn
        rw [hc] at hk
        cases hk
      · exact capLookup_dictInsert_ne d c.1 n none hcn
    · rfl

theorem lsFold_lookup_listed : ∀ (cl : List (String × Option String))
    (keys : List String) (d : CapMap) (n : String),
    n ∈ cl.map Prod.fst → keys.contains n = true →
    capLookup (cl.foldl (lsStep keys) d) n = some none := by
  intro cl
  induction cl with
  | nil => intro keys d n hn _; simp at hn
  | cons c cl ih =>
    intro keys d n hn hk
    show capLookup (cl.foldl (lsStep keys) (lsStep keys d c)) n = some none
    simp only [List.map_cons, List.mem_cons] at hn
    by_cases hmem : n ∈ cl.map Prod.fst
    · exact ih keys _ n hmem hk
    · have hnc : n = c.1 := by
        rcases hn with h1 | h2
        · exact h1
        · exact absurd h2 hmem
      subst hnc
      rw [lsFold_lookup_unlisted cl keys _ c.1 hmem]
      unfold lsStep
      rw [if_pos hk]
      exact capLookup_dictInsert_self d c.1 none

/-- Claim C9: on an unpaginated inbound `CAP * LS <list>` message, every
listed capability that has a local CAP handler is marked pending
(`None`) in the capability map, a listed capability without a local
handler leaves the map unchanged at its name (so it is never requested),
unlisted names are untouched, and one `CAP REQ :<cap>` line is sent for
every capability accumulated in the map, in map order. -/
theorem cap_ls_request_policy (st : CapState) (listStr : String)
    (st2 : CapState) (sends : List String) (hp : listStr ≠ "*")
    (hrun : internal_cap_handler st (Message.mk "CAP" ["*", "LS", listStr]) =
      some (st2, sends)) :
    sends = st2.caps.map (fun p => "CAP REQ :" ++ p.1) ∧
      st2.capHandlerKeys = st.capHandlerKeys ∧
      (∀ n, n ∈ (capListParse listStr).map Prod.fst →
        st.capHandlerKeys.contains n = true →
        capLookup st2.caps n = some none) ∧
      (∀ n, st.capHandlerKeys.contains n = false →
        capLookup st2.caps n = capLookup st.caps n) ∧
      (∀ n, n ∉ (capListParse listStr).map Prod.fst →
        capLookup st2.caps n = capLookup st.caps n) := by
  have hred : internal_cap_handler st (Message.mk "CAP" ["*", "LS", listStr]) =
      some ({ st with caps :=
          (capListParse listStr).foldl (lsStep st.capHandlerKeys) st.caps },
        if listStr ≠ "*" then
          ((capListParse listStr).foldl (lsStep st.capHandlerKeys)
            st.caps).map (fun p => "CAP REQ :" ++ p.1)
        else []) := rfl
  rw [hred] at hrun
  rw [if_pos hp] at hrun
  simp only [Option.some.injEq, Prod.mk.injEq] at hrun
  obtain ⟨rfl, rfl⟩ := hrun
  refine ⟨rfl, rfl, ?_, ?_, ?_⟩
  · intro n hmem hkey
    exact lsFold_lookup_listed (capListParse listStr) st.capHandlerKeys
      st.caps n hmem hkey
  · intro n hkey
    exact lsFold_lookup_no_handler (capListParse listStr) st.capHandlerKeys
      st.caps n hkey
  · intro n hmem
    exact lsFold_lookup_unlisted (capListParse listStr) st.capHandlerKeys
      st.caps n hmem

def lsWitState : CapState := ⟨[], ["sasl"]⟩

def lsWitState2 : CapState := ⟨[("sasl", none)], ["sasl"]⟩

theorem cap_ls_request_policy_witness :
    ["CAP REQ :sasl"] = lsWitState2.caps.map (fun p => "CAP REQ :" ++ p.1) ∧
      lsWitState2.capHandlerKeys = lsWitState.capHandlerKeys ∧
      (∀ n, n ∈ (capListParse "sasl multi-prefix").map Prod.fst →
        lsWitState.capHandlerKeys.contains n = true →
        capLookup lsWitState2.caps n = some none) ∧
      (∀ n, lsWitState.capHandlerKeys.contains n = false →
        capLookup lsWitState2.caps n = capLookup lsWitState.caps n) ∧
      (∀ n, n ∉ (capListParse "sasl multi-prefix").map Prod.fst →
        capLookup lsWitState2.caps n = capLookup lsWitState.caps n) :=
  cap_ls_request_policy lsWitState "sasl multi-prefix" lsWitState2
    ["CAP REQ :sasl"] (by decide) rfl

/-- The inbound message `CAP * ACK :sasl` as parsed. -/
def ackSasl : Message := Message.mk "CAP" ["*", "ACK", "sasl"]

def ackWitState : CapState := ⟨[("sasl", none)], ["sasl"]⟩

/-- Claim C1 (refuted — the code has no guard against resending
`CAP END`): starting from a capability map whose single capability `sasl`
is pending, the first `CAP * ACK :sasl` completes the map and sends
`CAP END`; a second, redundant `CAP * ACK :sasl` arriving after
completion sends `CAP END` again, so two `CAP END` lines are emitted in
total where the claim requires exactly one. -/
theorem cap_end_double_fire :
    runCapMsgs ackWitState [ackSasl] =
        some (⟨[("sasl", some true)], ["sasl"]⟩, ["CAP END"]) ∧
      runCapMsgs ackWitState [ackSasl, ackSasl] =
        some (⟨[("sasl", some true)], ["sasl"]⟩, ["CAP END", "CAP END"]) ∧
      (["CAP END", "CAP END"].count "CAP END" = 2) := by
  refine ⟨rfl, rfl, rfl⟩

end AsyncIrc
